import Mathlib

/-!
Verification development for the PDF hierarchy splitter
(src/PDF-Split/pdf_split.py).

The Python program is embedded shallowly:
* strings are `String` / `List Char` (the character classes of the
  pattern engine are modelled over ASCII, which covers every input used
  in the theorems below);
* the anchored patterns of `extract_section_info` are embedded as
  deterministic scanners - for each of the five patterns the
  backtracking search of the engine coincides with maximal munch, which
  is argued pattern by pattern in the comments;
* page numbers are `Nat` (the library hands the program zero-based page
  indices), page arithmetic of the range builder is done in `Int`
  exactly as Python ints behave (`total_pages - 1` may be negative);
* the file emitter is modelled by the list of directory names it
  creates and the list of file names it writes.
-/

/- ## Sanitization (`create_clean_filename`) -/

/-- The characters of the character class in the first substitution of
`create_clean_filename`. -/
def invalidChars : List Char := ['\\', '/', '*', '?', ':', '"', '<', '>', '|']

/-- One character of the first substitution: an invalid character becomes an
underscore. -/
def replChar (c : Char) : Char := if c ∈ invalidChars then '_' else c

/-- ASCII whitespace, as matched by the whitespace class of the pattern
engine. -/
def isSpaceC (c : Char) : Bool :=
  c = ' ' || c = '\t' || c = '\n' || c = '\r' || c = '\x0b' || c = '\x0c'

/-- Second substitution of `create_clean_filename`: every maximal whitespace
run becomes a single underscore.  The flag says whether the previous
character belonged to a whitespace run. -/
def collapseAux : Bool → List Char → List Char
  | _, [] => []
  | prevSpace, c :: rest =>
    if isSpaceC c then
      (if prevSpace then [] else ['_']) ++ collapseAux true rest
    else c :: collapseAux false rest

/-- Python `str.strip` with argument `'_'`: remove leading and trailing
underscores. -/
def stripUnderscore (l : List Char) : List Char :=
  ((l.dropWhile (fun c => c == '_')).reverse.dropWhile (fun c => c == '_')).reverse

/-- The transformation part of `create_clean_filename`: replace invalid
characters, collapse whitespace, strip underscores, truncate to 80. -/
def cleanPipeline (l : List Char) : List Char :=
  List.take 80 (stripUnderscore (collapseAux false (l.map replChar)))

/-- `create_clean_filename` from pdf_split.py: the `"Unnamed"` fallback is
taken exactly when the argument is falsy, i.e. the empty string. -/
def create_clean_filename (text : String) : String :=
  if text = "" then "Unnamed" else String.mk (cleanPipeline text.data)

/-- Reference sanitizer following the words of the specification: replace
invalid characters, collapse whitespace runs, strip underscores, truncate
to 80 characters, and an empty *result* becomes the literal `"Unnamed"`. -/
def referenceSanitize (text : String) : String :=
  let r := String.mk (cleanPipeline text.data)
  if r = "" then "Unnamed" else r

/- ## Title classifier (`extract_section_info`) -/

/-- Classification result: `(chapter_num, section_id, section_title, level)`. -/
structure Classification where
  chapterNum : Option String
  sectionId : Option String
  secTitle : Option String
  level : Int
deriving DecidableEq, Repr

/-- Match a literal keyword at the front, returning the remainder. -/
def stripKw : List Char → List Char → Option (List Char)
  | [], l => some l
  | _ :: _, [] => none
  | k :: ks, c :: cs => if c = k then stripKw ks cs else none

def chapterKw : List Char := ['C', 'h', 'a', 'p', 't', 'e', 'r']

def appendixKw : List Char := ['A', 'p', 'p', 'e', 'n', 'd', 'i', 'x']

/-- One-or-more whitespace: fails unless the head is whitespace, otherwise
consumes the maximal whitespace run. -/
def wsPlus (l : List Char) : Option (List Char) :=
  match l with
  | [] => none
  | c :: _ => if isSpaceC c then some (l.dropWhile isSpaceC) else none

/-- One-or-more digits: fails unless the head is a digit, otherwise returns
the maximal digit run and the remainder. -/
def digitsPlus (l : List Char) : Option (List Char × List Char) :=
  match l with
  | [] => none
  | c :: _ =>
    if c.isDigit then some (l.takeWhile Char.isDigit, l.dropWhile Char.isDigit)
    else none

/-- The optional `[:.]` of the chapter and appendix patterns.  Consuming it
when present is exact: if no whitespace follows, the backtracking engine
would release the character only to fail on it again. -/
def optColonDot (l : List Char) : List Char :=
  match l with
  | [] => []
  | c :: rest => if c = ':' || c = '.' then rest else l

/-- The `(.*)` group: everything up to (not including) the first newline,
since the dot of the engine does not match a newline. -/
def restOfLine (l : List Char) : List Char := l.takeWhile (fun c => c ≠ '\n')

/-- An optional `\.(\d+)` group.  Taking it greedily with a maximal digit
run is exact: skipping it, or taking fewer digits, leaves a dot or a digit
at the front, on which every possible continuation of these patterns
(another such group, `\s+`, or the end of the numeric part) fails. -/
def optDotDigits (l : List Char) : Option (List Char × List Char) :=
  match l with
  | [] => none
  | c :: rest => if c = '.' then digitsPlus rest else none

/-- Common numeric part of patterns 2 and 4:
digits, dot, digits, then up to two optional dot-digit groups.  Returns
chapter number, dotted section id, level, and the remainder. -/
def dottedCore (l : List Char) : Option (String × String × Int × List Char) :=
  match digitsPlus l with
  | none => none
  | some (d1, r1) =>
    match r1 with
    | [] => none
    | c :: r2 =>
      if c = '.' then
        match digitsPlus r2 with
        | none => none
        | some (d2, r3) =>
          match optDotDigits r3 with
          | none => some (String.mk d1, String.mk (d1 ++ '.' :: d2), 1, r3)
          | some (d3, r4) =>
            match optDotDigits r4 with
            | none => some (String.mk d1, String.mk (d1 ++ '.' :: d2 ++ '.' :: d3), 2, r4)
            | some (d4, r5) =>
              some (String.mk d1, String.mk (d1 ++ '.' :: d2 ++ '.' :: d3 ++ '.' :: d4), 3, r5)
      else none

/-- Pattern 1: chapter heading with a number and a trailing title. -/
def matchChapter (l : List Char) : Option (String × String) :=
  match stripKw chapterKw l with
  | none => none
  | some r1 =>
    match wsPlus r1 with
    | none => none
    | some r2 =>
      match digitsPlus r2 with
      | none => none
      | some (d, r3) =>
        match wsPlus (optColonDot r3) with
        | none => none
        | some r5 => some (String.mk d, String.mk (restOfLine r5))

/-- Pattern 2: dotted section number followed by whitespace and a title. -/
def matchSectionSpaced (l : List Char) : Option (String × String × String × Int) :=
  match dottedCore l with
  | none => none
  | some (ch, sid, lvl, r) =>
    match wsPlus r with
    | none => none
    | some r2 => some (ch, sid, String.mk (restOfLine r2), lvl)

/-- Pattern 3: a bare number followed by whitespace and a title. -/
def matchSimple (l : List Char) : Option (String × String) :=
  match digitsPlus l with
  | none => none
  | some (d, r) =>
    match wsPlus r with
    | none => none
    | some r2 => some (String.mk d, String.mk (restOfLine r2))

/-- Pattern 4: dotted section number with no required whitespace before the
title. -/
def matchSectionCompact (l : List Char) : Option (String × String × String × Int) :=
  match dottedCore l with
  | none => none
  | some (ch, sid, lvl, r) => some (ch, sid, String.mk (restOfLine r), lvl)

/-- Pattern 5: appendix heading with an uppercase letter. -/
def matchAppendix (l : List Char) : Option (String × String) :=
  match stripKw appendixKw l with
  | none => none
  | some r1 =>
    match wsPlus r1 with
    | none => none
    | some r2 =>
      match r2 with
      | [] => none
      | c :: r3 =>
        if 'A' ≤ c && c ≤ 'Z' then
          match wsPlus (optColonDot r3) with
          | none => none
          | some r5 => some (String.mk ('A' :: 'p' :: 'p' :: [c]), String.mk (restOfLine r5))
        else none

/-- The classifier on character lists, trying the five patterns in order. -/
def extractCore (l : List Char) : Classification :=
  match matchChapter l with
  | some (ch, t) => ⟨some ch, none, some t, 0⟩
  | none =>
    match matchSectionSpaced l with
    | some (ch, sid, t, lvl) => ⟨some ch, some sid, some t, lvl⟩
    | none =>
      match matchSimple l with
      | some (d, t) => ⟨some d, some d, some t, 0⟩
      | none =>
        match matchSectionCompact l with
        | some (ch, sid, t, lvl) => ⟨some ch, some sid, some t, lvl⟩
        | none =>
          match matchAppendix l with
          | some (ch, t) => ⟨some ch, none, some t, 0⟩
          | none => ⟨none, none, none, -1⟩

/-- `extract_section_info` from pdf_split.py. -/
def extract_section_info (title : String) : Classification :=
  extractCore title.data

/- ## Bookmarks, first pass and fallback (`hierarchy_split_pdf`, lines 167-218) -/

/-- A bookmark as produced by `extract_bookmarks_from_pdf`: a title and a
zero-based page index. -/
structure Bookmark where
  title : String
  page : Nat
deriving DecidableEq, Repr

/-- The value stored in the `chapters` dictionary: title and page of the
chapter bookmark. -/
structure ChapterVal where
  title : String
  page : Nat
deriving DecidableEq, Repr

/-- A row of the `sections` list built by the first pass. -/
structure SectionEntry where
  title : String
  chapter : String
  sectionId : Option String
  sectionTitle : String
  page : Nat
  level : Int
deriving DecidableEq, Repr

instance : Inhabited SectionEntry := ⟨⟨"", "", none, "", 0, 0⟩⟩

/-- State of the first pass: the `chapters` dictionary, the
`chapter_titles` dictionary and the `sections` list.  Python dictionaries
are embedded as association lists in insertion order. -/
def FPState := List (String × ChapterVal) × List (String × String) × List SectionEntry

/-- Assignment into a Python dictionary: overwriting a key keeps its
original position, a new key is appended. -/
def upsert {α : Type} (k : String) (v : α) : List (String × α) → List (String × α)
  | [] => [(k, v)]
  | (k', v') :: rest => if k' = k then (k, v) :: rest else (k', v') :: upsert k v rest

/-- One iteration of the first-pass loop over the bookmarks. -/
def firstPassStep (minLevel maxLevel : Int) (acc : FPState) (bm : Bookmark) : FPState :=
  let c := extract_section_info bm.title
  match c.chapterNum with
  | none => acc
  | some num =>
    if num = "" then acc
    else if c.level = 0 then
      (upsert num ⟨bm.title, bm.page⟩ acc.1, upsert num (c.secTitle.getD "") acc.2.1, acc.2.2)
    else if minLevel ≤ c.level ∧ c.level ≤ maxLevel then
      (acc.1, acc.2.1, acc.2.2 ++ [⟨bm.title, num, c.sectionId, c.secTitle.getD "", bm.page, c.level⟩])
    else acc

/-- The first pass of `hierarchy_split_pdf`: find chapters and sections. -/
def firstPass (bms : List Bookmark) (minLevel maxLevel : Int) : FPState :=
  bms.foldl (firstPassStep minLevel maxLevel) ([], [], [])

/-- The section list after the fallback of lines 198-218: if there are
chapters but no sections, and more than one chapter, every chapter is
promoted to a synthetic section under pseudo-chapter `"0"`. -/
def finalSections (bms : List Bookmark) (minLevel maxLevel : Int) : List SectionEntry :=
  let st := firstPass bms minLevel maxLevel
  if 0 < st.1.length ∧ st.2.2.length = 0 then
    if 1 < st.1.length then
      st.2.2 ++ st.1.map (fun kv =>
        ⟨kv.2.title, "0", some kv.1, ((st.2.1.lookup kv.1).getD ""), kv.2.page, 0⟩)
    else st.2.2
  else st.2.2

/- ## Stable sort by page (`sections.sort(key=lambda s: s.page)`) -/

/-- Insert an element after every element whose page is not larger: the
insertion position of a stable ascending sort. -/
def insertByPage (s : SectionEntry) : List SectionEntry → List SectionEntry
  | [] => [s]
  | t :: rest => if t.page ≤ s.page then t :: insertByPage s rest else s :: t :: rest

/-- Stable ascending sort by page, the semantics of Python list sort with
a key function. -/
def sortSections (l : List SectionEntry) : List SectionEntry :=
  l.foldl (fun acc s => insertByPage s acc) []

/- ## Range builder (`hierarchy_split_pdf`, lines 220-254) -/

/-- A section range as built by the loop: `end` is inclusive.  (`end` is a
reserved word, hence `endPage`.) -/
structure SectionRange where
  title : String
  chapter : String
  sectionId : Option String
  sectionTitle : String
  start : Int
  endPage : Int
deriving DecidableEq, Repr

instance : Inhabited SectionRange := ⟨⟨"", "", none, "", 0, 0⟩⟩

/-- The end page before the minimum-page extension: the page of the next
section when it is larger than the start page, the start page when the
next section is on the same page, and the last document page for the last
section. -/
def rawEnd (secs : List SectionEntry) (total : Nat) (i : Nat) : Int :=
  if i + 1 < secs.length then
    if ((secs.getD (i + 1) default).page : Int) > ((secs.getD i default).page : Int) then
      ((secs.getD (i + 1) default).page : Int)
    else ((secs.getD i default).page : Int)
  else (total : Int) - 1

/-- The minimum-page extension: a span smaller than `minPages` is extended
to `start + minPages - 1`, clamped to the last document page. -/
def extendEnd (start rawE minPages : Int) (total : Nat) : Int :=
  if rawE - start + 1 < minPages then min (start + minPages - 1) ((total : Int) - 1)
  else rawE

/-- The range emitted for the section at index `i`. -/
def rangeAt (secs : List SectionEntry) (total : Nat) (minPages : Int) (i : Nat) : SectionRange :=
  { title := (secs.getD i default).title, chapter := (secs.getD i default).chapter,
    sectionId := (secs.getD i default).sectionId,
    sectionTitle := (secs.getD i default).sectionTitle,
    start := ((secs.getD i default).page : Int),
    endPage := extendEnd ((secs.getD i default).page : Int) (rawEnd secs total i)
      minPages total }

/-- The `section_ranges` list built by the loop, in order. -/
def sectionRangesList (secs : List SectionEntry) (total : Nat) (minPages : Int) :
    List SectionRange :=
  (List.range secs.length).map (rangeAt secs total minPages)

/-- The ranges of a whole run, from the bookmarks. -/
def sectionRangesOf (bms : List Bookmark) (total : Nat) (minLevel maxLevel minPages : Int) :
    List SectionRange :=
  sectionRangesList (sortSections (finalSections bms minLevel maxLevel)) total minPages

/- ## File emitter (`hierarchy_split_pdf`, lines 256-330) -/

/-- Python `range(a, b + 1)` over the integers. -/
def intRange (a b : Int) : List Int :=
  (List.range (b - a + 1).toNat).map (fun k => a + (k : Int))

/-- How many pages the writer loop adds for a range: the indices from
`start` to `endPage` that exist in the document. -/
def numPagesAdded (total : Nat) (r : SectionRange) : Nat :=
  ((intRange r.start r.endPage).filter (fun p => decide (0 ≤ p) && decide (p < (total : Int)))).length

/-- The chapter directory name for a range. -/
def chapterFolderName (chapterTitles : List (String × String)) (ch : String) : String :=
  "Chapter_" ++ ch ++ "_" ++ create_clean_filename ((chapterTitles.lookup ch).getD ("Chapter_" ++ ch))

/-- The output file name the emitter builds for a range: the section id
with dots replaced by underscores (or `"Section_" + chapter` when the id
is falsy), an underscore, the sanitized section title, and `".pdf"`. -/
def emitFileName (r : SectionRange) : String :=
  let sid := match r.sectionId with
    | some s =>
      if s = "" then "Section_" ++ r.chapter
      else String.mk (s.data.map (fun c => if c = '.' then '_' else c))
    | none => "Section_" ++ r.chapter
  sid ++ "_" ++ create_clean_filename r.sectionTitle ++ ".pdf"

/-- Observable outcome of a run: whether the `"No sections to split!"`
early return was taken, the chapter directories created (in creation
order, each once), and the files written. -/
structure RunResult where
  noSplit : Bool
  dirs : List String
  files : List String
deriving DecidableEq, Repr

/-- `hierarchy_split_pdf` as the observable outcome of a run.  A directory
is created for every range; a file is written exactly for the ranges for
which at least one page could be added (the small-file retry rewrites the
same path and so does not change the file list). -/
def hierarchySplitPdf (bms : List Bookmark) (totalPages : Nat)
    (minLevel maxLevel minPages : Int) : RunResult :=
  let chapterTitles := (firstPass bms minLevel maxLevel).2.1
  let ranges := sectionRangesOf bms totalPages minLevel maxLevel minPages
  if ranges = [] then ⟨true, [], []⟩
  else
    { noSplit := false,
      dirs := ranges.foldl (fun acc r =>
        let d := chapterFolderName chapterTitles r.chapter
        if d ∈ acc then acc else acc ++ [d]) [],
      files := (ranges.filter (fun r => 0 < numPagesAdded totalPages r)).map emitFileName }

/-- Projection of a range onto the fields copied from its section. -/
def projR (r : SectionRange) : Int × String × String × Option String × String :=
  (r.start, r.title, r.chapter, r.sectionId, r.sectionTitle)

/-- Projection of a section onto the fields a range copies from it. -/
def projS (s : SectionEntry) : Int × String × String × Option String × String :=
  ((s.page : Int), s.title, s.chapter, s.sectionId, s.sectionTitle)

/-- Reference file name following the amended naming rule: the section id
with every dot replaced by an underscore when the id is present and
nonempty, otherwise `"Section_"` and the chapter id; then an underscore,
the sanitized section title, and the `".pdf"` extension. -/
def specFileName (r : SectionRange) : String :=
  ((r.sectionId.filter (fun s => !(s == ""))).elim ("Section_" ++ r.chapter)
      (fun s => String.mk (s.data.map (fun c => if c = '.' then '_' else c))))
    ++ "_" ++ create_clean_filename r.sectionTitle ++ ".pdf"

/-- The ordering the sort uses. -/
def pageLE (a b : SectionEntry) : Prop := a.page ≤ b.page

/-- The chapter-dictionary write a bookmark causes for a given key: a value
exactly when the bookmark classifies as a chapter (nonempty chapter number,
level 0) with that chapter id. -/
def chapterEventOf (id : String) (bm : Bookmark) : Option ChapterVal :=
  match (extract_section_info bm.title).chapterNum with
  | some n =>
    if n ≠ "" ∧ (extract_section_info bm.title).level = 0 ∧ n = id then
      some ⟨bm.title, bm.page⟩
    else none
  | none => none

/-- All chapter-dictionary writes of a run for a given key, in bookmark
order. -/
def chapterEventsFor (bms : List Bookmark) (id : String) : List ChapterVal :=
  bms.filterMap (chapterEventOf id)

/-- A concrete section list used by witnesses. -/
def sampleSecs : List SectionEntry :=
  [⟨"1.1 A", "1", some "1.1", "A", 0, 1⟩, ⟨"1.2 B", "1", some "1.2", "B", 2, 1⟩]

/-- A concrete bookmark list with two chapter-level bookmarks and no
sections, used by witnesses and counterexamples. -/
def twoChapterBookmarks : List Bookmark := [⟨"1 A", 0⟩, ⟨"2 B", 5⟩]

/-- A concrete bookmark list with one chapter and one section, used by
witnesses. -/
def chapterSectionBookmarks : List Bookmark := [⟨"1 Intro", 0⟩, ⟨"1.1 A", 1⟩]

/-- Join number components with literal dots, as the dotted numeric prefix
of a title. -/
def joinDots : List (List Char) → List Char
  | [] => []
  | [a] => a
  | a :: rest => a ++ '.' :: joinDots rest

/-- The text after the numeric prefix neither starts with a digit (the
prefix is maximal) nor with whitespace (the scope of the compact-pattern
claim). -/
def okRestHead (rest : List Char) : Bool :=
  match rest.head? with
  | none => true
  | some c => !c.isDigit && !isSpaceC c

/-- The text after the numeric prefix does not start with a dot followed by
a digit (the prefix has all the components). -/
def okRestDot (rest : List Char) : Bool :=
  match rest with
  | c :: c2 :: _ => if c = '.' then !c2.isDigit else true
  | _ => true

example : extract_section_info "Chapter 1: Introduction" =
    ⟨some "1", none, some "Introduction", 0⟩ := by decide

example : extract_section_info "1.2 Data Model" =
    ⟨some "1", some "1.2", some "Data Model", 1⟩ := by decide

example : extract_section_info "1.2.3.4 Deep Note" =
    ⟨some "1", some "1.2.3.4", some "Deep Note", 3⟩ := by decide

example : extract_section_info "1 Introduction" =
    ⟨some "1", some "1", some "Introduction", 0⟩ := by decide

example : extract_section_info "1.1Overview" =
    ⟨some "1", some "1.1", some "Overview", 1⟩ := by decide

example : extract_section_info "3.14" =
    ⟨some "3", some "3.14", some "", 1⟩ := by decide

example : extract_section_info "Appendix A: References" =
    ⟨some "AppA", none, some "References", 0⟩ := by decide

example : extract_section_info "Preface" = ⟨none, none, none, -1⟩ := by decide

example : create_clean_filename "a  b" = "a_b" := by decide

example : create_clean_filename "_" = "" := by decide

example : create_clean_filename "" = "Unnamed" := by decide

example :
    hierarchySplitPdf [⟨"1.2 Data", 0⟩] 3 1 1 1 =
      ⟨false, ["Chapter_1_Chapter_1"], ["1_2_Data.pdf"]⟩ := by decide

example :
    hierarchySplitPdf [⟨"1 A", 0⟩, ⟨"2 B", 1⟩] 2 1 1 1 =
      ⟨false, ["Chapter_0_Chapter_0"], ["1_A.pdf", "2_B.pdf"]⟩ := by decide

example : hierarchySplitPdf [⟨"Preface", 0⟩] 7 1 1 1 = ⟨true, [], []⟩ := by decide

example :
    (hierarchySplitPdf [⟨"1.1 A", 0⟩] 0 1 1 1).noSplit = false := by decide

/- ## General list helper lemmas -/

theorem map_eq_self_of {α : Type} (f : α → α) (l : List α) (h : ∀ c ∈ l, f c = c) :
    l.map f = l := by
  induction l with
  | nil => rfl
  | cons a t ih =>
    simp only [List.map_cons]
    rw [h a (by simp), ih (fun c hc => h c (by simp [hc]))]

theorem mem_dropWhileC {α : Type} (p : α → Bool) (l : List α) (c : α)
    (h : c ∈ l.dropWhile p) : c ∈ l := by
  induction l with
  | nil => simp at h
  | cons a t ih =>
    rw [List.dropWhile_cons] at h
    split at h
    · exact List.mem_cons_of_mem a (ih h)
    · exact h

theorem mem_of_take {α : Type} (n : Nat) (l : List α) (c : α) (h : c ∈ l.take n) : c ∈ l := by
  induction l generalizing n with
  | nil => simp at h
  | cons a t ih =>
    cases n with
    | zero => simp at h
    | succ m =>
      rw [List.take_succ_cons] at h
      rcases List.mem_cons.mp h with rfl | h2
      · exact List.mem_cons_self _ _
      · exact List.mem_cons_of_mem a (ih m h2)

theorem dropWhile_eq_append {α : Type} (p : α → Bool) (l : List α) :
    ∃ s, s ++ l.dropWhile p = l := by
  induction l with
  | nil => exact ⟨[], rfl⟩
  | cons a t ih =>
    rw [List.dropWhile_cons]
    split
    · obtain ⟨s, hs⟩ := ih
      exact ⟨a :: s, by simp [hs]⟩
    · exact ⟨[], rfl⟩

theorem head?_eq_of_append {α : Type} (l s : List α) (h : l ≠ []) :
    (l ++ s).head? = l.head? := by
  cases l with
  | nil => exact absurd rfl h
  | cons a t => rfl

theorem head?_take_pos {α : Type} (n : Nat) (l : List α) (hn : 0 < n) :
    (l.take n).head? = l.head? := by
  cases l with
  | nil => simp
  | cons a t =>
    cases n with
    | zero => omega
    | succ m => rfl

theorem dropWhile_eq_self_of_head {α : Type} (p : α → Bool) (l : List α)
    (h : ∀ c, l.head? = some c → p c = false) : l.dropWhile p = l := by
  cases l with
  | nil => rfl
  | cons a t => exact List.dropWhile_cons_of_neg (by simp [h a rfl])

/- ## Lemmas about the sanitizer -/

theorem mem_collapseAux {c : Char} : ∀ (b : Bool) (l : List Char),
    c ∈ collapseAux b l → c = '_' ∨ (c ∈ l ∧ isSpaceC c = false) := by
  intro b l
  induction l generalizing b with
  | nil => simp [collapseAux]
  | cons a t ih =>
    intro h
    simp only [collapseAux] at h
    by_cases ha : isSpaceC a
    · rw [if_pos ha] at h
      rcases List.mem_append.mp h with h1 | h2
      · left; cases b <;> simp_all
      · rcases ih true h2 with h3 | ⟨hm, hs⟩
        · left; exact h3
        · right; exact ⟨by simp [hm], hs⟩
    · rw [if_neg ha] at h
      rcases List.mem_cons.mp h with rfl | h2
      · right; exact ⟨by simp, by simpa using ha⟩
      · rcases ih false h2 with h3 | ⟨hm, hs⟩
        · left; exact h3
        · right; exact ⟨by simp [hm], hs⟩

theorem collapseAux_eq_self (l : List Char) (h : ∀ c ∈ l, isSpaceC c = false) :
    ∀ b, collapseAux b l = l := by
  induction l with
  | nil => intro b; rfl
  | cons a t ih =>
    intro b
    have ha : isSpaceC a = false := h a (by simp)
    simp [collapseAux, ha, ih (fun c hc => h c (by simp [hc])) false]

theorem mem_stripUnderscore (l : List Char) (c : Char) (h : c ∈ stripUnderscore l) :
    c ∈ l := by
  unfold stripUnderscore at h
  rw [List.mem_reverse] at h
  have h2 := mem_dropWhileC _ _ _ h
  rw [List.mem_reverse] at h2
  exact mem_dropWhileC _ _ _ h2

theorem stripUnderscore_head? (l : List Char) (c : Char)
    (hc : (stripUnderscore l).head? = some c) : (c == '_') = false := by
  have hs : ∃ s, s ++ (l.dropWhile (fun c => c == '_')).reverse.dropWhile (fun c => c == '_')
      = (l.dropWhile (fun c => c == '_')).reverse :=
    dropWhile_eq_append _ _
  obtain ⟨s, hs⟩ := hs
  have hstrip : stripUnderscore l
      = ((l.dropWhile (fun c => c == '_')).reverse.dropWhile (fun c => c == '_')).reverse := rfl
  have hw2 : l.dropWhile (fun c => c == '_')
      = ((l.dropWhile (fun c => c == '_')).reverse.dropWhile (fun c => c == '_')).reverse
        ++ s.reverse := by
    have h3 := congrArg List.reverse hs
    simpa using h3.symm
  have hne : ((l.dropWhile (fun c => c == '_')).reverse.dropWhile (fun c => c == '_')).reverse
      ≠ [] := by
    rw [← hstrip]
    intro h
    rw [h] at hc
    simp at hc
  have hhead : (l.dropWhile (fun c => c == '_')).head? = some c := by
    rw [hw2, head?_eq_of_append _ _ hne, ← hstrip, hc]
  have hd := List.head?_dropWhile_not (fun c => c == '_') l
  rw [hhead] at hd
  exact hd

theorem cleanPipeline_chars (d : List Char) (c : Char) (h : c ∈ cleanPipeline d) :
    c ∉ invalidChars ∧ isSpaceC c = false := by
  unfold cleanPipeline at h
  have h1 := mem_stripUnderscore _ _ (mem_of_take _ _ _ h)
  rcases mem_collapseAux false _ h1 with rfl | ⟨hm, hs⟩
  · exact ⟨by decide, by decide⟩
  · obtain ⟨c0, _, hc0⟩ := List.mem_map.mp hm
    refine ⟨?_, hs⟩
    unfold replChar at hc0
    by_cases hcont : c0 ∈ invalidChars
    · rw [if_pos hcont] at hc0
      rw [← hc0]; decide
    · rw [if_neg hcont] at hc0
      rw [← hc0]
      exact hcont

theorem cleanPipeline_length (d : List Char) : (cleanPipeline d).length ≤ 80 := by
  unfold cleanPipeline
  simp [List.length_take]

theorem cleanPipeline_head? (d : List Char) (c : Char)
    (h : (cleanPipeline d).head? = some c) : (c == '_') = false := by
  unfold cleanPipeline at h
  rw [head?_take_pos _ _ (by omega)] at h
  exact stripUnderscore_head? _ c h

theorem cleanPipeline_idem (d : List Char)
    (h2 : (cleanPipeline d).getLast? ≠ some '_') :
    cleanPipeline (cleanPipeline d) = cleanPipeline d := by
  have hchars := fun c hc => cleanPipeline_chars d c hc
  have hmap : (cleanPipeline d).map replChar = cleanPipeline d :=
    map_eq_self_of _ _ (fun c hc => by
      have h3 := (hchars c hc).1
      unfold replChar
      rw [if_neg h3])
  have hcol : collapseAux false (cleanPipeline d) = cleanPipeline d :=
    collapseAux_eq_self _ (fun c hc => (hchars c hc).2) false
  have hfront : (cleanPipeline d).dropWhile (fun c => c == '_') = cleanPipeline d :=
    dropWhile_eq_self_of_head _ _ (fun c hc => cleanPipeline_head? d c hc)
  have hback : (cleanPipeline d).reverse.dropWhile (fun c => c == '_')
      = (cleanPipeline d).reverse := by
    apply dropWhile_eq_self_of_head
    intro c hc
    rw [List.head?_reverse] at hc
    have h3 : c ≠ '_' := fun h => h2 (h ▸ hc)
    simp [h3]
  have hstrip : stripUnderscore (cleanPipeline d) = cleanPipeline d := by
    unfold stripUnderscore
    rw [hfront, hback, List.reverse_reverse]
  have hlen : (cleanPipeline d).take 80 = cleanPipeline d :=
    List.take_of_length_le (cleanPipeline_length d)
  calc cleanPipeline (cleanPipeline d)
      = List.take 80 (stripUnderscore (collapseAux false ((cleanPipeline d).map replChar))) :=
        rfl
    _ = cleanPipeline d := by rw [hmap, hcol, hstrip, hlen]

/- ## C5: idempotence of the sanitizer -/

/-- C5 counterexample: sanitization is not idempotent.  The input `"_"` is
nonempty, so it goes through the transformation and comes out as the empty
string; sanitizing that result again returns `"Unnamed"`. -/
theorem C5_counterexample :
    create_clean_filename (create_clean_filename "_") ≠ create_clean_filename "_" := by
  decide

/-- C5 (amended): the sanitizer is idempotent on every input whose sanitized
result is nonempty and does not end in an underscore (a trailing underscore
can survive only through the 80-character truncation, and a second
application strips it; an empty result turns into `"Unnamed"` on the second
application). -/
theorem C5_sanitize_idem (x : String)
    (h1 : create_clean_filename x ≠ "")
    (h2 : (create_clean_filename x).data.getLast? ≠ some '_') :
    create_clean_filename (create_clean_filename x) = create_clean_filename x := by
  by_cases hx : x = ""
  · subst hx; decide
  · have hccf : create_clean_filename x = String.mk (cleanPipeline x.data) := by
      unfold create_clean_filename
      rw [if_neg hx]
    have hdata : (create_clean_filename x).data = cleanPipeline x.data := by rw [hccf]
    have hne : String.mk (cleanPipeline x.data) ≠ "" := by
      rw [← hccf]; exact h1
    rw [hccf]
    unfold create_clean_filename
    rw [if_neg hne]
    have hgoal : cleanPipeline (String.mk (cleanPipeline x.data)).data
        = cleanPipeline x.data := by
      show cleanPipeline (cleanPipeline x.data) = cleanPipeline x.data
      apply cleanPipeline_idem
      rw [hdata] at h2
      exact h2
    rw [hgoal]

/-- C5 witness: the amended idempotence applied at the input `"a b"`. -/
theorem C5_witness :
    (create_clean_filename "a b" ≠ "" ∧
      (create_clean_filename "a b").data.getLast? ≠ some '_') ∧
    create_clean_filename (create_clean_filename "a b") = create_clean_filename "a b" :=
  ⟨⟨by decide, by decide⟩, C5_sanitize_idem "a b" (by decide) (by decide)⟩

/- ## C6: the sanitizer against the reference definition -/

/-- C6 counterexample: the claim says every input whose transformed result
is empty yields `"Unnamed"`, but the code returns `"Unnamed"` only for the
empty input: on `"_"` the transformed result is empty and the code returns
the empty string, not `"Unnamed"`. -/
theorem C6_counterexample : create_clean_filename "_" ≠ referenceSanitize "_" := by
  decide

/-- C6 (amended): `create_clean_filename` performs exactly the reference
steps (replace invalid characters, collapse whitespace runs, strip
underscores, truncate to 80), and agrees with the reference definition on
every input whose transformed result is nonempty; the `"Unnamed"` fallback
applies only to the empty input, and a nonempty input whose transformed
result is empty yields the empty string. -/
theorem C6_sanitize_reference (x : String) :
    (x = "" → create_clean_filename x = "Unnamed")
    ∧ (x ≠ "" → create_clean_filename x = String.mk (cleanPipeline x.data))
    ∧ (cleanPipeline x.data ≠ [] → create_clean_filename x = referenceSanitize x)
    ∧ (x ≠ "" → cleanPipeline x.data = [] → create_clean_filename x = "") := by
  refine ⟨?_, ?_, ?_, ?_⟩
  · intro hx
    unfold create_clean_filename
    rw [if_pos hx]
  · intro hx
    unfold create_clean_filename
    rw [if_neg hx]
  · intro hp
    by_cases hx : x = ""
    · subst hx
      exact absurd rfl hp
    · have hmk : String.mk (cleanPipeline x.data) ≠ "" := by
        intro hcon
        apply hp
        have h3 := congrArg String.data hcon
        simpa using h3
      unfold create_clean_filename referenceSanitize
      rw [if_neg hx, if_neg hmk]
  · intro hx hp
    unfold create_clean_filename
    rw [if_neg hx, hp]

/-- C6 witness: the amended statement applied at the input `"a"`. -/
theorem C6_witness :
    (("a" : String) ≠ "" ∧ cleanPipeline ("a" : String).data ≠ []) ∧
    create_clean_filename "a" = referenceSanitize "a" :=
  ⟨⟨by decide, by decide⟩, (C6_sanitize_reference "a").2.2.1 (by decide)⟩

/- ## Lemmas about the first pass -/

theorem lookup_cons_ne {α : Type} (a b : String) (h : ¬ a = b) (v : α)
    (t : List (String × α)) : List.lookup a ((b, v) :: t) = List.lookup a t := by
  have hb : (a == b) = false := by simp [h]
  simp [List.lookup, hb]

theorem lookup_cons_eq {α : Type} (a : String) (v : α) (t : List (String × α)) :
    List.lookup a ((a, v) :: t) = some v := by
  simp [List.lookup]

theorem lookup_upsert {α : Type} (k : String) (v : α) (l : List (String × α)) (k' : String) :
    (upsert k v l).lookup k' = if k' = k then some v else l.lookup k' := by
  induction l with
  | nil =>
    by_cases h : k' = k
    · subst h
      simp [upsert, lookup_cons_eq]
    · have h0 : upsert k v ([] : List (String × α)) = [(k, v)] := rfl
      rw [h0, lookup_cons_ne k' k h, if_neg h]
  | cons a t ih =>
    obtain ⟨ka, va⟩ := a
    unfold upsert
    by_cases hk : ka = k
    · subst hk
      rw [if_pos rfl]
      by_cases h : k' = ka
      · subst h
        rw [lookup_cons_eq, if_pos rfl]
      · rw [lookup_cons_ne k' ka h, lookup_cons_ne k' ka h, if_neg h]
    · rw [if_neg hk]
      by_cases h : k' = ka
      · subst h
        have hkk : ¬ k' = k := fun hc => hk (hc ▸ rfl)
        rw [lookup_cons_eq, lookup_cons_eq, if_neg hkk]
      · rw [lookup_cons_ne k' ka h, lookup_cons_ne k' ka h, ih]

theorem mem_upsert {α : Type} (k : String) (v : α) (l : List (String × α))
    (x : String × α) (h : x ∈ upsert k v l) : x = (k, v) ∨ x ∈ l := by
  induction l with
  | nil => simpa [upsert] using h
  | cons a t ih =>
    unfold upsert at h
    split at h
    · rcases List.mem_cons.mp h with rfl | h2
      · exact Or.inl rfl
      · exact Or.inr (List.mem_cons_of_mem _ h2)
    · rcases List.mem_cons.mp h with rfl | h2
      · exact Or.inr (List.mem_cons_self _ _)
      · rcases ih h2 with h3 | h3
        · exact Or.inl h3
        · exact Or.inr (List.mem_cons_of_mem _ h3)

theorem length_upsert_le {α : Type} (k : String) (v : α) (l : List (String × α)) :
    (upsert k v l).length ≤ l.length + 1 := by
  induction l with
  | nil => simp [upsert]
  | cons a t ih =>
    unfold upsert
    split
    · simp
    · simpa using ih

/-- Case analysis on one step of the first pass: either a chapter write, a
section append, or no change. -/
theorem firstPassStep_cases (minLevel maxLevel : Int) (acc : FPState) (bm : Bookmark) :
    (∃ num, (extract_section_info bm.title).chapterNum = some num ∧ num ≠ "" ∧
        (extract_section_info bm.title).level = 0 ∧
        firstPassStep minLevel maxLevel acc bm =
          (upsert num ⟨bm.title, bm.page⟩ acc.1,
           upsert num ((extract_section_info bm.title).secTitle.getD "") acc.2.1, acc.2.2))
    ∨ (∃ num, (extract_section_info bm.title).chapterNum = some num ∧ num ≠ "" ∧
        (extract_section_info bm.title).level ≠ 0 ∧
        minLevel ≤ (extract_section_info bm.title).level ∧
        (extract_section_info bm.title).level ≤ maxLevel ∧
        firstPassStep minLevel maxLevel acc bm =
          (acc.1, acc.2.1, acc.2.2 ++
            [⟨bm.title, num, (extract_section_info bm.title).sectionId,
              (extract_section_info bm.title).secTitle.getD "", bm.page,
              (extract_section_info bm.title).level⟩]))
    ∨ firstPassStep minLevel maxLevel acc bm = acc := by
  cases hc : (extract_section_info bm.title).chapterNum with
  | none =>
    refine Or.inr (Or.inr ?_)
    simp only [firstPassStep, hc]
  | some num =>
    by_cases h1 : num = ""
    · refine Or.inr (Or.inr ?_)
      simp only [firstPassStep, hc]
      simp [h1]
    · by_cases h2 : (extract_section_info bm.title).level = 0
      · refine Or.inl ⟨num, rfl, h1, h2, ?_⟩
        simp only [firstPassStep, hc]
        simp [h1, h2]
      · by_cases h3 : minLevel ≤ (extract_section_info bm.title).level ∧
            (extract_section_info bm.title).level ≤ maxLevel
        · refine Or.inr (Or.inl ⟨num, rfl, h1, h2, h3.1, h3.2, ?_⟩)
          simp only [firstPassStep, hc]
          simp [h1, h2, h3]
        · refine Or.inr (Or.inr ?_)
          simp only [firstPassStep, hc]
          simp [h1, h2, h3]

/-- Sections collected by the first pass always carry a classification level
inside the window and never level 0. -/
theorem firstPass_sections_aux (minLevel maxLevel : Int) :
    ∀ (l : List Bookmark) (acc : FPState),
      (∀ s ∈ acc.2.2, minLevel ≤ s.level ∧ s.level ≤ maxLevel ∧ s.level ≠ 0) →
      ∀ s ∈ (l.foldl (firstPassStep minLevel maxLevel) acc).2.2,
        minLevel ≤ s.level ∧ s.level ≤ maxLevel ∧ s.level ≠ 0 := by
  intro l
  induction l with
  | nil => intro acc h; exact h
  | cons bm t ih =>
    intro acc h
    rw [List.foldl_cons]
    apply ih
    intro s hs
    rcases firstPassStep_cases minLevel maxLevel acc bm with
      ⟨num, _, _, _, heq⟩ | ⟨num, _, _, hlv, hlo, hhi, heq⟩ | heq
    · rw [heq] at hs
      exact h s hs
    · rw [heq] at hs
      rcases List.mem_append.mp hs with h2 | h2
      · exact h s h2
      · rcases List.mem_cons.mp h2 with rfl | h3
        · exact ⟨hlo, hhi, hlv⟩
        · simp at h3
    · rw [heq] at hs
      exact h s hs

theorem firstPass_sections_window (bms : List Bookmark) (minLevel maxLevel : Int) :
    ∀ s ∈ (firstPass bms minLevel maxLevel).2.2,
      minLevel ≤ s.level ∧ s.level ≤ maxLevel ∧ s.level ≠ 0 :=
  firstPass_sections_aux minLevel maxLevel bms ([], [], []) (by intro s hs; simp at hs)

/-- Every page recorded by the first pass (chapter values and sections) is
the page of some input bookmark. -/
theorem firstPass_pages_aux (minLevel maxLevel : Int) (P : Nat → Prop) :
    ∀ (l : List Bookmark) (acc : FPState),
      (∀ bm ∈ l, P bm.page) →
      (∀ kv ∈ acc.1, P (Prod.snd kv).page) →
      (∀ s ∈ acc.2.2, P s.page) →
      (∀ kv ∈ (l.foldl (firstPassStep minLevel maxLevel) acc).1, P (Prod.snd kv).page) ∧
      (∀ s ∈ (l.foldl (firstPassStep minLevel maxLevel) acc).2.2, P s.page) := by
  intro l
  induction l with
  | nil => intro acc _ h1 h2; exact ⟨h1, h2⟩
  | cons bm t ih =>
    intro acc hl h1 h2
    rw [List.foldl_cons]
    have hbm : P bm.page := hl bm (by simp)
    have hl' : ∀ b ∈ t, P b.page := fun b hb => hl b (by simp [hb])
    rcases firstPassStep_cases minLevel maxLevel acc bm with
      ⟨num, _, _, _, heq⟩ | ⟨num, _, _, _, _, _, heq⟩ | heq
    · rw [heq]
      apply ih _ hl'
      · intro kv hkv
        rcases mem_upsert _ _ _ _ hkv with rfl | h3
        · exact hbm
        · exact h1 kv h3
      · exact h2
    · rw [heq]
      apply ih _ hl'
      · exact h1
      · intro s hs
        rcases List.mem_append.mp hs with h3 | h3
        · exact h2 s h3
        · rcases List.mem_cons.mp h3 with rfl | h4
          · exact hbm
          · simp at h4
    · rw [heq]
      exact ih _ hl' h1 h2

/-- Every page of a final (post-fallback) section is the page of some input
bookmark. -/
theorem finalSections_pages (bms : List Bookmark) (minLevel maxLevel : Int)
    (P : Nat → Prop) (hP : ∀ bm ∈ bms, P bm.page) :
    ∀ s ∈ finalSections bms minLevel maxLevel, P s.page := by
  have haux := firstPass_pages_aux minLevel maxLevel P bms ([], [], []) hP
    (by intro kv hkv; simp at hkv) (by intro s hs; simp at hs)
  intro s hs
  simp only [finalSections] at hs
  split at hs
  · split at hs
    · rcases List.mem_append.mp hs with h2 | h2
      · exact haux.2 s h2
      · obtain ⟨kv, hkv, hkv2⟩ := List.mem_map.mp h2
        rw [← hkv2]
        exact haux.1 kv hkv
    · exact haux.2 s hs
  · exact haux.2 s hs

theorem getLast?_cons_some {α : Type} (a : α) (l : List α) :
    ∃ w, (a :: l).getLast? = some w := by
  induction l generalizing a with
  | nil => exact ⟨a, rfl⟩
  | cons b t ih =>
    rw [List.getLast?_cons_cons]
    exact ih b

/-- One step of the first pass, seen through the chapter dictionary at one
key. -/
theorem firstPassStep_lookup (minLevel maxLevel : Int) (acc : FPState) (bm : Bookmark)
    (id : String) :
    ((firstPassStep minLevel maxLevel acc bm).1).lookup id
      = match chapterEventOf id bm with
        | some v => some v
        | none => acc.1.lookup id := by
  cases hc : (extract_section_info bm.title).chapterNum with
  | none =>
    simp only [firstPassStep, chapterEventOf, hc]
  | some n =>
    by_cases h1 : n = ""
    · simp only [firstPassStep, chapterEventOf, hc]
      simp [h1]
    · by_cases h2 : (extract_section_info bm.title).level = 0
      · by_cases h3 : n = id
        · subst h3
          simp only [firstPassStep, chapterEventOf, hc]
          simp [h1, h2, lookup_upsert]
        · have h4 : ¬ id = n := fun hcc => h3 hcc.symm
          simp only [firstPassStep, chapterEventOf, hc]
          simp [h1, h2, h3, lookup_upsert, h4]
      · simp only [firstPassStep, chapterEventOf, hc]
        simp only [if_neg h1, if_neg h2]
        have hfalse : ¬ (n ≠ "" ∧ (extract_section_info bm.title).level = 0 ∧ n = id) := by
          intro hcc
          exact h2 hcc.2.1
        rw [if_neg hfalse]
        split <;> rfl

theorem firstPass_lookup_aux (minLevel maxLevel : Int) (id : String) :
    ∀ (l : List Bookmark) (acc : FPState),
      ((l.foldl (firstPassStep minLevel maxLevel) acc).1).lookup id
        = match (chapterEventsFor l id).getLast? with
          | some v => some v
          | none => acc.1.lookup id := by
  intro l
  induction l with
  | nil => intro acc; rfl
  | cons bm t ih =>
    intro acc
    rw [List.foldl_cons, ih]
    cases he : chapterEventOf id bm with
    | none =>
      have hev : chapterEventsFor (bm :: t) id = chapterEventsFor t id := by
        simp [chapterEventsFor, List.filterMap_cons, he]
      rw [hev]
      cases hg : (chapterEventsFor t id).getLast? with
      | some v => rfl
      | none => simp [firstPassStep_lookup, he]
    | some v =>
      have hev : chapterEventsFor (bm :: t) id = v :: chapterEventsFor t id := by
        simp [chapterEventsFor, List.filterMap_cons, he]
      rw [hev]
      cases hE : chapterEventsFor t id with
      | nil => simp [firstPassStep_lookup, he]
      | cons e es =>
        obtain ⟨w, hw⟩ := getLast?_cons_some e es
        rw [List.getLast?_cons_cons, hw]

/-- The chapter dictionary after the whole first pass maps each key to the
last chapter bookmark with that key (last occurrence wins). -/
theorem firstPass_chapters_lookup (bms : List Bookmark) (minLevel maxLevel : Int)
    (id : String) :
    ((firstPass bms minLevel maxLevel).1).lookup id = (chapterEventsFor bms id).getLast? := by
  have h := firstPass_lookup_aux minLevel maxLevel id bms ([], [], [])
  unfold firstPass
  rw [h]
  cases hg : (chapterEventsFor bms id).getLast? with
  | some v => rfl
  | none => rfl

/- ## Lemmas about the stable sort -/

theorem mem_insertByPage (s x : SectionEntry) (l : List SectionEntry) :
    x ∈ insertByPage s l ↔ x = s ∨ x ∈ l := by
  induction l with
  | nil => simp [insertByPage]
  | cons t rest ih =>
    unfold insertByPage
    by_cases hts : t.page ≤ s.page
    · rw [if_pos hts, List.mem_cons, ih, List.mem_cons]
      tauto
    · rw [if_neg hts, List.mem_cons, List.mem_cons]

theorem pairwise_insertByPage (s : SectionEntry) (l : List SectionEntry)
    (h : l.Pairwise pageLE) : (insertByPage s l).Pairwise pageLE := by
  induction l with
  | nil => simp [insertByPage, List.pairwise_cons]
  | cons t rest ih =>
    rw [List.pairwise_cons] at h
    unfold insertByPage
    by_cases hts : t.page ≤ s.page
    · rw [if_pos hts, List.pairwise_cons]
      constructor
      · intro u hu
        rcases (mem_insertByPage s u rest).mp hu with rfl | hu2
        · exact hts
        · exact h.1 u hu2
      · exact ih h.2
    · rw [if_neg hts, List.pairwise_cons]
      constructor
      · intro u hu
        rcases List.mem_cons.mp hu with rfl | hu2
        · unfold pageLE
          omega
        · have h5 := h.1 u hu2
          unfold pageLE at h5 ⊢
          omega
      · rw [List.pairwise_cons]
        exact h

theorem sortSections_fold_pairwise :
    ∀ (l : List SectionEntry) (acc : List SectionEntry),
      acc.Pairwise pageLE →
      (l.foldl (fun a s => insertByPage s a) acc).Pairwise pageLE := by
  intro l
  induction l with
  | nil => intro acc h; exact h
  | cons s t ih =>
    intro acc h
    rw [List.foldl_cons]
    exact ih _ (pairwise_insertByPage s acc h)

theorem sortSections_pairwise (l : List SectionEntry) :
    (sortSections l).Pairwise pageLE :=
  sortSections_fold_pairwise l [] (List.Pairwise.nil)

theorem mem_sortSections_fold :
    ∀ (l : List SectionEntry) (acc : List SectionEntry) (x : SectionEntry),
      x ∈ l.foldl (fun a s => insertByPage s a) acc ↔ x ∈ acc ∨ x ∈ l := by
  intro l
  induction l with
  | nil => intro acc x; simp
  | cons s t ih =>
    intro acc x
    rw [List.foldl_cons, ih, mem_insertByPage]
    simp
    tauto

theorem mem_sortSections (l : List SectionEntry) (x : SectionEntry) :
    x ∈ sortSections l ↔ x ∈ l := by
  unfold sortSections
  rw [mem_sortSections_fold]
  simp

theorem filter_insertByPage (s : SectionEntry) (l : List SectionEntry) (p : Nat)
    (hs : l.Pairwise pageLE) :
    (insertByPage s l).filter (fun t => t.page == p)
      = if s.page = p then l.filter (fun t => t.page == p) ++ [s]
        else l.filter (fun t => t.page == p) := by
  induction l with
  | nil =>
    by_cases hp : s.page = p
    · simp [insertByPage, List.filter_cons, hp]
    · simp [insertByPage, List.filter_cons, hp]
  | cons t rest ih =>
    rw [List.pairwise_cons] at hs
    unfold insertByPage
    by_cases hts : t.page ≤ s.page
    · rw [if_pos hts, List.filter_cons, List.filter_cons, ih hs.2]
      by_cases hp : s.page = p <;> by_cases htp : t.page = p <;> simp [hp, htp]
    · rw [if_neg hts]
      by_cases hp : s.page = p
      · have hall : (t :: rest).filter (fun u => u.page == p) = [] := by
          rw [List.filter_eq_nil_iff]
          intro u hu
          rcases List.mem_cons.mp hu with rfl | hu2
          · simp
            omega
          · have h5 := hs.1 u hu2
            unfold pageLE at h5
            simp
            omega
        rw [List.filter_cons, hall]
        simp [hp]
      · rw [List.filter_cons]
        simp [hp]

theorem filter_sortSections_fold (p : Nat) :
    ∀ (l : List SectionEntry) (acc : List SectionEntry),
      acc.Pairwise pageLE →
      ((l.foldl (fun a s => insertByPage s a) acc).filter (fun t => t.page == p))
        = acc.filter (fun t => t.page == p) ++ l.filter (fun t => t.page == p) := by
  intro l
  induction l with
  | nil => intro acc _; simp
  | cons s t ih =>
    intro acc hacc
    rw [List.foldl_cons, ih _ (pairwise_insertByPage s acc hacc),
      filter_insertByPage s acc p hacc, List.filter_cons]
    by_cases hp : s.page = p
    · simp [hp]
    · simp [hp]

/-- Stability of the sort: for every page value, the entries at that page
appear in the sorted list exactly as they appear in the input. -/
theorem sortSections_filter (l : List SectionEntry) (p : Nat) :
    (sortSections l).filter (fun t => t.page == p) = l.filter (fun t => t.page == p) := by
  unfold sortSections
  rw [filter_sortSections_fold p l [] List.Pairwise.nil]
  simp

/- ## Lemmas about the range builder -/

theorem getD_of_lt {α : Type} [Inhabited α] (l : List α) (i : Nat) (h : i < l.length) :
    l.getD i default = l[i] := by
  simp [List.getD, List.getElem?_eq_getElem h]

theorem sectionRangesList_length (secs : List SectionEntry) (total : Nat) (minPages : Int) :
    (sectionRangesList secs total minPages).length = secs.length := by
  simp [sectionRangesList]

theorem sectionRangesList_getElem (secs : List SectionEntry) (total : Nat) (minPages : Int)
    (i : Nat) (hi : i < (sectionRangesList secs total minPages).length) :
    (sectionRangesList secs total minPages)[i] = rangeAt secs total minPages i := by
  simp [sectionRangesList]

theorem rangesList_map_proj (secs : List SectionEntry) (total : Nat) (minPages : Int) :
    (sectionRangesList secs total minPages).map projR = secs.map projS := by
  apply List.ext_getElem
  · simp [sectionRangesList]
  · intro i h1 h2
    simp only [List.getElem_map, sectionRangesList, List.getElem_range]
    have hlen : i < secs.length := by simpa [sectionRangesList] using h2
    unfold rangeAt projR projS
    rw [getD_of_lt secs i hlen]

theorem extendEnd_bounds (start rawE minPages : Int) (total : Nat)
    (hmp : 1 ≤ minPages) (hstart : start ≤ (total : Int) - 1)
    (hraw1 : start ≤ rawE) (hraw2 : rawE ≤ (total : Int) - 1) :
    start ≤ extendEnd start rawE minPages total
    ∧ extendEnd start rawE minPages total ≤ (total : Int) - 1 := by
  unfold extendEnd
  split
  · rw [Int.min_def]
    split <;> constructor <;> omega
  · exact ⟨hraw1, hraw2⟩

theorem rawEnd_bounds (secs : List SectionEntry) (total : Nat) (i : Nat)
    (hi : i < secs.length)
    (hpages : ∀ s ∈ secs, s.page < total) :
    ((secs.getD i default).page : Int) ≤ rawEnd secs total i
    ∧ rawEnd secs total i ≤ (total : Int) - 1 := by
  have hs : (secs.getD i default).page < total := by
    rw [getD_of_lt _ _ hi]
    exact hpages _ (List.getElem_mem hi)
  unfold rawEnd
  by_cases h1 : i + 1 < secs.length
  · have hn : (secs.getD (i + 1) default).page < total := by
      rw [getD_of_lt _ _ h1]
      exact hpages _ (List.getElem_mem h1)
    rw [if_pos h1]
    split <;> constructor <;> omega
  · rw [if_neg h1]
    constructor <;> omega

/- ## C2: the boundary policy of the range builder -/

/-- C2: the range builder applies exactly one boundary policy: before the
minimum-page extension, the end page of the section at index `i` is the
next section's page when that page is larger than the start page, the
start page itself when the next section is on the same page, and
`totalPages - 1` for the last section; the emitted end page is the
minimum-page extension applied to that value. -/
theorem C2_boundary_policy (secs : List SectionEntry) (total : Nat) (minPages : Int)
    (i : Nat) (hi : i < secs.length) :
    (sectionRangesList secs total minPages)[i]? = some (rangeAt secs total minPages i)
    ∧ (rangeAt secs total minPages i).endPage
        = extendEnd ((secs.getD i default).page : Int) (rawEnd secs total i) minPages total
    ∧ (i + 1 < secs.length →
        ((secs.getD (i + 1) default).page > (secs.getD i default).page →
          rawEnd secs total i = ((secs.getD (i + 1) default).page : Int)))
    ∧ (i + 1 < secs.length →
        ((secs.getD (i + 1) default).page = (secs.getD i default).page →
          rawEnd secs total i = ((secs.getD i default).page : Int)))
    ∧ (i + 1 = secs.length → rawEnd secs total i = (total : Int) - 1) := by
  refine ⟨?_, rfl, ?_, ?_, ?_⟩
  · simp [sectionRangesList, List.getElem?_range, hi]
  · intro h1 h2
    have hgt : ((secs.getD (i + 1) default).page : Int) > ((secs.getD i default).page : Int) :=
      by exact_mod_cast h2
    unfold rawEnd
    rw [if_pos h1, if_pos hgt]
  · intro h1 h2
    have heq : ((secs.getD (i + 1) default).page : Int) = ((secs.getD i default).page : Int) :=
      by exact_mod_cast h2
    unfold rawEnd
    rw [if_pos h1, if_neg (by omega)]
  · intro h1
    unfold rawEnd
    rw [if_neg (by omega)]

/-- C2 witness: the policy evaluated on a concrete two-section list. -/
theorem C2_witness :
    (0 < sampleSecs.length ∧ 0 + 1 < sampleSecs.length
      ∧ (sampleSecs.getD 1 default).page > (sampleSecs.getD 0 default).page)
    ∧ (sectionRangesList sampleSecs 5 1)[0]? = some (rangeAt sampleSecs 5 1 0)
    ∧ rawEnd sampleSecs 5 0 = ((sampleSecs.getD 1 default).page : Int) :=
  ⟨⟨by decide, by decide, by decide⟩,
   (C2_boundary_policy sampleSecs 5 1 0 (by decide)).1,
   (C2_boundary_policy sampleSecs 5 1 0 (by decide)).2.2.1 (by decide) (by decide)⟩

/- ## C3: range invariants and ordering -/

/-- C3: when the document has at least one page, the minimum page count is
at least one, and every bookmark page is a valid page index, every emitted
range satisfies `start ≤ endPage ≤ totalPages - 1`; the ranges are ordered
by start page; they carry exactly the fields of the stably sorted section
list (position by position), and the sort is stable: for every page value
the sections at that page keep their input order. -/
theorem C3_range_invariants (bms : List Bookmark) (minLevel maxLevel minPages : Int)
    (total : Nat) (h1 : 1 ≤ total) (h2 : 1 ≤ minPages)
    (h3 : ∀ bm ∈ bms, bm.page < total) :
    (∀ r ∈ sectionRangesOf bms total minLevel maxLevel minPages,
        r.start ≤ r.endPage ∧ r.endPage ≤ (total : Int) - 1)
    ∧ (sectionRangesOf bms total minLevel maxLevel minPages).Pairwise
        (fun a b => a.start ≤ b.start)
    ∧ (sectionRangesOf bms total minLevel maxLevel minPages).map projR
        = (sortSections (finalSections bms minLevel maxLevel)).map projS
    ∧ (∀ p : Nat,
        (sortSections (finalSections bms minLevel maxLevel)).filter (fun s => s.page == p)
          = (finalSections bms minLevel maxLevel).filter (fun s => s.page == p)) := by
  have hpages : ∀ s ∈ sortSections (finalSections bms minLevel maxLevel), s.page < total := by
    intro s hs
    exact finalSections_pages bms minLevel maxLevel (fun p => p < total) h3 s
      ((mem_sortSections _ s).mp hs)
  refine ⟨?_, ?_, ?_, ?_⟩
  · intro r hr
    unfold sectionRangesOf sectionRangesList at hr
    obtain ⟨i, hi, rfl⟩ := List.mem_map.mp hr
    rw [List.mem_range] at hi
    have hmem : (sortSections (finalSections bms minLevel maxLevel)).getD i default
        ∈ sortSections (finalSections bms minLevel maxLevel) := by
      rw [getD_of_lt _ _ hi]
      exact List.getElem_mem hi
    have hs : (((sortSections (finalSections bms minLevel maxLevel)).getD i default).page : Int)
        ≤ (total : Int) - 1 := by
      have h4 := hpages _ hmem
      omega
    have hraw := rawEnd_bounds (sortSections (finalSections bms minLevel maxLevel)) total i
      hi hpages
    exact extendEnd_bounds _ _ minPages total h2 hs hraw.1 hraw.2
  · have hpw := sortSections_pairwise (finalSections bms minLevel maxLevel)
    have hmap : (sectionRangesOf bms total minLevel maxLevel minPages).map projR
        = (sortSections (finalSections bms minLevel maxLevel)).map projS :=
      rangesList_map_proj _ total minPages
    have hproj : ((sectionRangesOf bms total minLevel maxLevel minPages).map projR).Pairwise
        (fun x y => x.1 ≤ y.1) := by
      rw [hmap, List.pairwise_map]
      refine hpw.imp (fun h => ?_)
      unfold pageLE at h
      simp only [projS]
      exact_mod_cast h
    rw [List.pairwise_map] at hproj
    exact hproj.imp (fun h => h)
  · exact rangesList_map_proj _ total minPages
  · intro p
    exact sortSections_filter _ p

/-- C3 witness: the invariants evaluated on a concrete run. -/
theorem C3_witness :
    (1 ≤ 6 ∧ (1 : Int) ≤ 1 ∧ ∀ bm ∈ twoChapterBookmarks, bm.page < 6)
    ∧ (∀ r ∈ sectionRangesOf twoChapterBookmarks 6 1 1 1,
        r.start ≤ r.endPage ∧ r.endPage ≤ (6 : Int) - 1)
    ∧ (sectionRangesOf twoChapterBookmarks 6 1 1 1).Pairwise
        (fun a b => a.start ≤ b.start) :=
  ⟨⟨by decide, by decide, by decide⟩,
   (C3_range_invariants twoChapterBookmarks 1 1 1 6 (by decide) (by decide) (by decide)).1,
   (C3_range_invariants twoChapterBookmarks 1 1 1 6 (by decide) (by decide) (by decide)).2.1⟩

/- ## C4: the "nothing to split" stop -/

/-- When no sections survive, the run takes the early return: it reports
"No sections to split!" and creates no directories and no files. -/
theorem hierarchySplit_no_sections (bms : List Bookmark) (total : Nat)
    (minLevel maxLevel minPages : Int)
    (h : finalSections bms minLevel maxLevel = []) :
    hierarchySplitPdf bms total minLevel maxLevel minPages = ⟨true, [], []⟩ := by
  unfold hierarchySplitPdf sectionRangesOf
  rw [h]
  rfl

/-- C4 counterexample: a document declaring zero total pages is *not*
reported as "nothing to split" when classified sections exist: the run
proceeds and even creates a chapter directory (though it writes no file). -/
theorem C4_counterexample :
    (hierarchySplitPdf [⟨"1.1 A", 0⟩] 0 1 1 1).noSplit = false
    ∧ (hierarchySplitPdf [⟨"1.1 A", 0⟩] 0 1 1 1).dirs ≠ []
    ∧ (hierarchySplitPdf [⟨"1.1 A", 0⟩] 0 1 1 1).files = [] := by
  decide

/-- C4 (amended): if no sections survive classification and the fallback,
the program signals "nothing to split" and stops, creating no output files
or directories.  (A zero-page document alone does not trigger the stop
when classified sections exist.) -/
theorem C4_nothing_to_split (bms : List Bookmark) (total : Nat)
    (minLevel maxLevel minPages : Int)
    (h : finalSections bms minLevel maxLevel = []) :
    hierarchySplitPdf bms total minLevel maxLevel minPages = ⟨true, [], []⟩ :=
  hierarchySplit_no_sections bms total minLevel maxLevel minPages h

/-- C4 witness: the amended statement at a run with one unclassifiable
bookmark. -/
theorem C4_witness :
    finalSections [⟨"Preface", 0⟩] 1 1 = []
    ∧ hierarchySplitPdf [⟨"Preface", 0⟩] 9 1 1 1 = ⟨true, [], []⟩ :=
  ⟨by decide, C4_nothing_to_split [⟨"Preface", 0⟩] 9 1 1 1 (by decide)⟩

/- ## C8: the chapters-as-sections fallback -/

/-- C8: when the first pass finds no candidate sections but more than one
chapter, the fallback promotes every chapter (in dictionary order) to a
synthetic section under the single pseudo-chapter id "0"; when the first
pass finds no sections and at most one chapter, the section list stays
empty and the run reports no output. -/
theorem C8_fallback (bms : List Bookmark) (total : Nat) (minLevel maxLevel minPages : Int) :
    ((firstPass bms minLevel maxLevel).2.2 = [] →
      1 < (firstPass bms minLevel maxLevel).1.length →
      finalSections bms minLevel maxLevel
        = (firstPass bms minLevel maxLevel).1.map (fun kv =>
            ⟨kv.2.title, "0", some kv.1,
             (((firstPass bms minLevel maxLevel).2.1.lookup kv.1).getD ""), kv.2.page, 0⟩))
    ∧ ((firstPass bms minLevel maxLevel).2.2 = [] →
        (firstPass bms minLevel maxLevel).1.length ≤ 1 →
        finalSections bms minLevel maxLevel = []
        ∧ hierarchySplitPdf bms total minLevel maxLevel minPages = ⟨true, [], []⟩) := by
  constructor
  · intro hsec hlen
    simp only [finalSections]
    rw [if_pos ⟨by omega, by rw [hsec]; rfl⟩, if_pos hlen, hsec]
    simp
  · intro hsec hlen
    have hfin : finalSections bms minLevel maxLevel = [] := by
      simp only [finalSections]
      split
      · rw [if_neg (by omega)]
        exact hsec
      · exact hsec
    exact ⟨hfin, hierarchySplit_no_sections bms total minLevel maxLevel minPages hfin⟩

/-- C8 witness: two chapter-level bookmarks and no sections: the fallback
yields exactly two synthetic sections, both under pseudo-chapter "0". -/
theorem C8_witness :
    ((firstPass twoChapterBookmarks 1 1).2.2 = []
      ∧ 1 < (firstPass twoChapterBookmarks 1 1).1.length)
    ∧ finalSections twoChapterBookmarks 1 1
        = (firstPass twoChapterBookmarks 1 1).1.map (fun kv =>
            ⟨kv.2.title, "0", some kv.1,
             (((firstPass twoChapterBookmarks 1 1).2.1.lookup kv.1).getD ""), kv.2.page, 0⟩)
    ∧ (finalSections twoChapterBookmarks 1 1).length = 2
    ∧ (∀ s ∈ finalSections twoChapterBookmarks 1 1, s.chapter = "0") :=
  ⟨⟨by decide, by decide⟩,
   (C8_fallback twoChapterBookmarks 6 1 1 1).1 (by decide) (by decide),
   by decide, by decide⟩

/- ## C10: level-0 bookmarks never enter the first-pass section list -/

/-- C10: for every level window (including windows containing 0), a
level-0 classification never enters the first-pass section list - it only
writes the chapter dictionary, where the last occurrence of a chapter id
wins - and when the first pass found any section, the fallback does not
run, so level-0 bookmarks become sections only through the fallback. -/
theorem C10_level_zero_chapters (bms : List Bookmark) (minLevel maxLevel : Int) :
    (∀ s ∈ (firstPass bms minLevel maxLevel).2.2, s.level ≠ 0)
    ∧ (∀ id : String,
        ((firstPass bms minLevel maxLevel).1).lookup id = (chapterEventsFor bms id).getLast?)
    ∧ ((firstPass bms minLevel maxLevel).2.2 ≠ [] →
        finalSections bms minLevel maxLevel = (firstPass bms minLevel maxLevel).2.2) := by
  refine ⟨?_, ?_, ?_⟩
  · intro s hs
    exact (firstPass_sections_window bms minLevel maxLevel s hs).2.2
  · intro id
    exact firstPass_chapters_lookup bms minLevel maxLevel id
  · intro hne
    simp only [finalSections]
    rw [if_neg (fun hc => hne (List.length_eq_zero.mp hc.2))]

/-- C10 witness: a window containing level 0 on a run with one chapter and
one section. -/
theorem C10_witness :
    ((⟨"1.1 A", "1", some "1.1", "A", 1, 1⟩ : SectionEntry)
        ∈ (firstPass chapterSectionBookmarks 0 1).2.2)
    ∧ (⟨"1.1 A", "1", some "1.1", "A", 1, 1⟩ : SectionEntry).level ≠ 0
    ∧ ((firstPass chapterSectionBookmarks 0 1).1).lookup "1"
        = (chapterEventsFor chapterSectionBookmarks "1").getLast?
    ∧ (firstPass chapterSectionBookmarks 0 1).2.2 ≠ []
    ∧ finalSections chapterSectionBookmarks 0 1 = (firstPass chapterSectionBookmarks 0 1).2.2 :=
  ⟨by decide,
   (C10_level_zero_chapters chapterSectionBookmarks 0 1).1 _ (by decide),
   (C10_level_zero_chapters chapterSectionBookmarks 0 1).2.1 "1",
   by decide,
   (C10_level_zero_chapters chapterSectionBookmarks 0 1).2.2 (by decide)⟩

/- ## C1: levels of emitted ranges against the window -/

/-- C1 counterexample: with the valid window [1,1], a run whose bookmarks
all classify at level 0 still emits ranges (via the fallback), so not
every emitted range comes from a bookmark whose classification level lies
in the window. -/
theorem C1_counterexample :
    ¬ (∀ r ∈ sectionRangesOf twoChapterBookmarks 6 1 1 1,
        ∃ bm ∈ twoChapterBookmarks, bm.title = r.title
          ∧ 1 ≤ (extract_section_info bm.title).level
          ∧ (extract_section_info bm.title).level ≤ 1) := by
  decide

/-- C1 (amended): for a valid window, every final section (each of which
yields exactly one emitted range) either has its classification level
inside [minLevel, maxLevel], or is a fallback-promoted chapter: its level
is 0 and it exists only because the first pass found no section and more
than one chapter. -/
theorem C1_window_or_fallback (bms : List Bookmark) (minLevel maxLevel : Int)
    (hw : minLevel ≤ maxLevel) (s : SectionEntry)
    (hs : s ∈ finalSections bms minLevel maxLevel) :
    (minLevel ≤ s.level ∧ s.level ≤ maxLevel)
    ∨ (s.level = 0 ∧ (firstPass bms minLevel maxLevel).2.2 = []
        ∧ 1 < (firstPass bms minLevel maxLevel).1.length) := by
  simp only [finalSections] at hs
  by_cases hcond : 0 < (firstPass bms minLevel maxLevel).1.length ∧
      (firstPass bms minLevel maxLevel).2.2.length = 0
  · rw [if_pos hcond] at hs
    by_cases hlen : 1 < (firstPass bms minLevel maxLevel).1.length
    · rw [if_pos hlen] at hs
      rcases List.mem_append.mp hs with h2 | h2
      · have h4 := firstPass_sections_window bms minLevel maxLevel s h2
        exact Or.inl ⟨h4.1, h4.2.1⟩
      · obtain ⟨kv, _, hkv2⟩ := List.mem_map.mp h2
        refine Or.inr ⟨?_, List.length_eq_zero.mp hcond.2, hlen⟩
        rw [← hkv2]
    · rw [if_neg hlen] at hs
      have h4 := firstPass_sections_window bms minLevel maxLevel s hs
      exact Or.inl ⟨h4.1, h4.2.1⟩
  · rw [if_neg hcond] at hs
    have h4 := firstPass_sections_window bms minLevel maxLevel s hs
    exact Or.inl ⟨h4.1, h4.2.1⟩

/-- C1 witness: the amended statement at the fallback run on two chapter
bookmarks. -/
theorem C1_witness :
    ((1 : Int) ≤ (1 : Int)
      ∧ (⟨"1 A", "0", some "1", "A", 0, 0⟩ : SectionEntry)
          ∈ finalSections twoChapterBookmarks 1 1)
    ∧ (((1 : Int) ≤ (⟨"1 A", "0", some "1", "A", 0, 0⟩ : SectionEntry).level
        ∧ (⟨"1 A", "0", some "1", "A", 0, 0⟩ : SectionEntry).level ≤ 1)
      ∨ ((⟨"1 A", "0", some "1", "A", 0, 0⟩ : SectionEntry).level = 0
        ∧ (firstPass twoChapterBookmarks 1 1).2.2 = []
        ∧ 1 < (firstPass twoChapterBookmarks 1 1).1.length)) :=
  ⟨⟨by decide, by decide⟩,
   C1_window_or_fallback twoChapterBookmarks 1 1 (by decide) _ (by decide)⟩

/- ## C7: output file naming -/

theorem emitFileName_eq_spec (r : SectionRange) : emitFileName r = specFileName r := by
  unfold emitFileName specFileName
  cases hs : r.sectionId with
  | none => rfl
  | some s =>
    by_cases he : s = ""
    · subst he
      rfl
    · simp [Option.filter, he]

/-- C7 counterexample: a section id "1.2" does not keep its dots - the
emitter replaces each dot by an underscore (and does not pass the id
through the sanitizer at all), so the emitted name differs from
`sanitize(sectionId) + "_" + sanitize(title) + ".pdf"`. -/
theorem C7_counterexample :
    (hierarchySplitPdf [⟨"1.2 Data", 0⟩] 3 1 1 1).files = ["1_2_Data.pdf"]
    ∧ "1_2_Data.pdf"
        ≠ create_clean_filename "1.2" ++ "_" ++ create_clean_filename "Data" ++ ".pdf" := by
  decide

/-- C7 (amended): every file a run writes is named by the rule: the section
id with every dot replaced by an underscore (or "Section_" plus the
chapter id when the id is absent or empty), an underscore, the sanitized
section title, and ".pdf"; exactly the ranges with at least one copyable
page get a file. -/
theorem C7_file_naming (bms : List Bookmark) (total : Nat) (minLevel maxLevel minPages : Int) :
    (hierarchySplitPdf bms total minLevel maxLevel minPages).files
      = ((sectionRangesOf bms total minLevel maxLevel minPages).filter
          (fun r => 0 < numPagesAdded total r)).map specFileName := by
  have hfun : emitFileName = specFileName := funext emitFileName_eq_spec
  simp only [hierarchySplitPdf]
  split
  · next h => rw [h]; rfl
  · rw [hfun]

/- ## C9: lemmas about the pattern scanners -/

theorem takeWhile_append_all {p : Char → Bool} (a r : List Char)
    (h : ∀ c ∈ a, p c = true) : (a ++ r).takeWhile p = a ++ r.takeWhile p := by
  induction a with
  | nil => simp
  | cons x t ih =>
    rw [List.cons_append, List.takeWhile_cons_of_pos (h x (by simp)),
      ih (fun c hc => h c (by simp [hc]))]
    rfl

theorem dropWhile_append_all {p : Char → Bool} (a r : List Char)
    (h : ∀ c ∈ a, p c = true) : (a ++ r).dropWhile p = r.dropWhile p := by
  induction a with
  | nil => simp
  | cons x t ih =>
    rw [List.cons_append, List.dropWhile_cons_of_pos (h x (by simp)),
      ih (fun c hc => h c (by simp [hc]))]

theorem takeWhile_nil_of_head {p : Char → Bool} (r : List Char)
    (h : ∀ c, r.head? = some c → p c = false) : r.takeWhile p = [] := by
  cases r with
  | nil => rfl
  | cons y s =>
    have hy := h y rfl
    simp [List.takeWhile_cons, hy]

theorem okRestHead_spec (rest : List Char) (h : okRestHead rest = true) :
    ∀ c, rest.head? = some c → c.isDigit = false ∧ isSpaceC c = false := by
  intro c hc
  cases rest with
  | nil => simp at hc
  | cons x t =>
    rw [List.head?_cons, Option.some_inj] at hc
    subst hc
    unfold okRestHead at h
    rw [List.head?_cons] at h
    simp at h
    exact ⟨by simp [h.1], by simp [h.2]⟩

theorem okRestDot_spec (rest : List Char) (h : okRestDot rest = true)
    (c2 : Char) (t : List Char) (hr : rest = '.' :: c2 :: t) : c2.isDigit = false := by
  subst hr
  have h2 : (if ('.' : Char) = '.' then !c2.isDigit else true) = true := h
  rw [if_pos rfl] at h2
  simpa using h2

theorem digitsPlus_exact (a r : List Char) (ha : a ≠ [])
    (had : ∀ c ∈ a, c.isDigit = true)
    (hr : ∀ c, r.head? = some c → c.isDigit = false) :
    digitsPlus (a ++ r) = some (a, r) := by
  cases a with
  | nil => exact absurd rfl ha
  | cons x t =>
    have hx : x.isDigit = true := had x (by simp)
    have hrt : r.takeWhile Char.isDigit = [] := takeWhile_nil_of_head r hr
    have hrd : r.dropWhile Char.isDigit = r :=
      dropWhile_eq_self_of_head _ r hr
    rw [List.cons_append]
    unfold digitsPlus
    rw [List.takeWhile_cons_of_pos hx, List.dropWhile_cons_of_pos hx,
      takeWhile_append_all t r (fun c hc => had c (by simp [hc])),
      dropWhile_append_all t r (fun c hc => had c (by simp [hc])), hrt, hrd]
    simp [hx]

theorem digitsPlus_none_of_head (r : List Char)
    (h : ∀ c, r.head? = some c → c.isDigit = false) : digitsPlus r = none := by
  cases r with
  | nil => rfl
  | cons y s =>
    have hy := h y rfl
    simp [digitsPlus, hy]

theorem wsPlus_none (r : List Char)
    (h : ∀ c, r.head? = some c → isSpaceC c = false) : wsPlus r = none := by
  cases r with
  | nil => rfl
  | cons y s =>
    have hy := h y rfl
    simp [wsPlus, hy]

theorem optDotDigits_none_of (rest : List Char) (h : okRestDot rest = true) :
    optDotDigits rest = none := by
  cases rest with
  | nil => rfl
  | cons c r =>
    show (if c = '.' then digitsPlus r else none) = none
    by_cases hc : c = '.'
    · subst hc
      rw [if_pos rfl]
      cases r with
      | nil => rfl
      | cons c2 s =>
        have h2 := okRestDot_spec _ h c2 s rfl
        simp [digitsPlus, h2]
    · rw [if_neg hc]

theorem optDotDigits_some (part rest : List Char) (hp : part ≠ [])
    (hpd : ∀ c ∈ part, c.isDigit = true)
    (hr : ∀ c, rest.head? = some c → c.isDigit = false) :
    optDotDigits ('.' :: (part ++ rest)) = some (part, rest) := by
  show (if ('.' : Char) = '.' then digitsPlus (part ++ rest) else none) = some (part, rest)
  rw [if_pos rfl]
  exact digitsPlus_exact part rest hp hpd hr

theorem stripKw_none_of_ne (k : Char) (ks : List Char) (c : Char) (cs : List Char)
    (h : ¬ c = k) : stripKw (k :: ks) (c :: cs) = none := by
  simp [stripKw, h]

theorem head_dot_cons (b rest : List Char) :
    ∀ c : Char, ('.' :: (b ++ rest)).head? = some c → c.isDigit = false := by
  intro c hc
  rw [List.head?_cons, Option.some_inj] at hc
  subst hc
  decide

theorem dottedCore_two (a b rest : List Char)
    (ha : a ≠ []) (had : ∀ c ∈ a, c.isDigit = true)
    (hb : b ≠ []) (hbd : ∀ c ∈ b, c.isDigit = true)
    (hhead : okRestHead rest = true) (hdot : okRestDot rest = true) :
    dottedCore (a ++ '.' :: (b ++ rest))
      = some (String.mk a, String.mk (a ++ '.' :: b), 1, rest) := by
  have hrh : ∀ c, rest.head? = some c → c.isDigit = false :=
    fun c hc => (okRestHead_spec rest hhead c hc).1
  have h1 : digitsPlus (a ++ '.' :: (b ++ rest)) = some (a, '.' :: (b ++ rest)) :=
    digitsPlus_exact a _ ha had (head_dot_cons b rest)
  have h2 : digitsPlus (b ++ rest) = some (b, rest) := digitsPlus_exact b rest hb hbd hrh
  have h3 : optDotDigits rest = none := optDotDigits_none_of rest hdot
  simp only [dottedCore, h1, h2, h3]
  simp

theorem dottedCore_three (a b c rest : List Char)
    (ha : a ≠ []) (had : ∀ x ∈ a, x.isDigit = true)
    (hb : b ≠ []) (hbd : ∀ x ∈ b, x.isDigit = true)
    (hc : c ≠ []) (hcd : ∀ x ∈ c, x.isDigit = true)
    (hhead : okRestHead rest = true) (hdot : okRestDot rest = true) :
    dottedCore (a ++ '.' :: (b ++ '.' :: (c ++ rest)))
      = some (String.mk a, String.mk (a ++ '.' :: b ++ '.' :: c), 2, rest) := by
  have hrh : ∀ x, rest.head? = some x → x.isDigit = false :=
    fun x hx => (okRestHead_spec rest hhead x hx).1
  have h1 : digitsPlus (a ++ '.' :: (b ++ '.' :: (c ++ rest)))
      = some (a, '.' :: (b ++ '.' :: (c ++ rest))) :=
    digitsPlus_exact a _ ha had (head_dot_cons _ _)
  have h2 : digitsPlus (b ++ '.' :: (c ++ rest)) = some (b, '.' :: (c ++ rest)) :=
    digitsPlus_exact b _ hb hbd (head_dot_cons _ _)
  have h3 : optDotDigits ('.' :: (c ++ rest)) = some (c, rest) :=
    optDotDigits_some c rest hc hcd hrh
  have h4 : optDotDigits rest = none := optDotDigits_none_of rest hdot
  simp only [dottedCore, h1, h2, h3, h4]
  simp [List.append_assoc]

theorem dottedCore_four (a b c d rest : List Char)
    (ha : a ≠ []) (had : ∀ x ∈ a, x.isDigit = true)
    (hb : b ≠ []) (hbd : ∀ x ∈ b, x.isDigit = true)
    (hc : c ≠ []) (hcd : ∀ x ∈ c, x.isDigit = true)
    (hd : d ≠ []) (hdd : ∀ x ∈ d, x.isDigit = true)
    (hhead : okRestHead rest = true) :
    dottedCore (a ++ '.' :: (b ++ '.' :: (c ++ '.' :: (d ++ rest))))
      = some (String.mk a, String.mk (a ++ '.' :: b ++ '.' :: c ++ '.' :: d), 3, rest) := by
  have hrh : ∀ x, rest.head? = some x → x.isDigit = false :=
    fun x hx => (okRestHead_spec rest hhead x hx).1
  have h1 : digitsPlus (a ++ '.' :: (b ++ '.' :: (c ++ '.' :: (d ++ rest))))
      = some (a, '.' :: (b ++ '.' :: (c ++ '.' :: (d ++ rest)))) :=
    digitsPlus_exact a _ ha had (head_dot_cons _ _)
  have h2 : digitsPlus (b ++ '.' :: (c ++ '.' :: (d ++ rest)))
      = some (b, '.' :: (c ++ '.' :: (d ++ rest))) :=
    digitsPlus_exact b _ hb hbd (head_dot_cons _ _)
  have h3 : optDotDigits ('.' :: (c ++ '.' :: (d ++ rest))) = some (c, '.' :: (d ++ rest)) := by
    show (if ('.' : Char) = '.' then digitsPlus (c ++ '.' :: (d ++ rest)) else none)
      = some (c, '.' :: (d ++ rest))
    rw [if_pos rfl]
    exact digitsPlus_exact c _ hc hcd (head_dot_cons _ _)
  have h4 : optDotDigits ('.' :: (d ++ rest)) = some (d, rest) :=
    optDotDigits_some d rest hd hdd hrh
  simp only [dottedCore, h1, h2, h3, h4]
  simp [List.append_assoc]

theorem matchChapter_none_of_digit (x : Char) (t : List Char) (hx : x.isDigit = true) :
    matchChapter (x :: t) = none := by
  have hne : ¬ x = 'C' := by
    intro h
    subst h
    exact absurd hx (by decide)
  simp only [matchChapter, chapterKw, stripKw_none_of_ne _ _ _ _ hne]

theorem wsPlus_dot (R : List Char) : wsPlus ('.' :: R) = none := by
  simp [wsPlus, isSpaceC]

theorem extractCore_two (a b rest : List Char)
    (ha : a ≠ []) (had : ∀ c ∈ a, c.isDigit = true)
    (hb : b ≠ []) (hbd : ∀ c ∈ b, c.isDigit = true)
    (hhead : okRestHead rest = true) (hdot : okRestDot rest = true) :
    extractCore (a ++ '.' :: (b ++ rest))
      = ⟨some (String.mk a), some (String.mk (a ++ '.' :: b)),
         some (String.mk (restOfLine rest)), 1⟩ := by
  obtain ⟨x, t, rfl⟩ : ∃ x t, a = x :: t := by
    cases a with
    | nil => exact absurd rfl ha
    | cons x t => exact ⟨x, t, rfl⟩
  have hx : x.isDigit = true := had x (by simp)
  have hcore := dottedCore_two (x :: t) b rest ha had hb hbd hhead hdot
  have hchap : matchChapter ((x :: t) ++ '.' :: (b ++ rest)) = none := by
    rw [List.cons_append]
    exact matchChapter_none_of_digit x _ hx
  have hsimple : matchSimple ((x :: t) ++ '.' :: (b ++ rest)) = none := by
    have h1 : digitsPlus ((x :: t) ++ '.' :: (b ++ rest))
        = some (x :: t, '.' :: (b ++ rest)) :=
      digitsPlus_exact _ _ ha had (head_dot_cons _ _)
    simp only [matchSimple, h1, wsPlus_dot]
  have hspaced : matchSectionSpaced ((x :: t) ++ '.' :: (b ++ rest)) = none := by
    have hws : wsPlus rest = none :=
      wsPlus_none rest (fun c hc => (okRestHead_spec rest hhead c hc).2)
    simp only [matchSectionSpaced, hcore, hws]
  simp only [extractCore, hchap, hspaced, hsimple, matchSectionCompact, hcore]

theorem extractCore_three (a b c rest : List Char)
    (ha : a ≠ []) (had : ∀ x ∈ a, x.isDigit = true)
    (hb : b ≠ []) (hbd : ∀ x ∈ b, x.isDigit = true)
    (hc : c ≠ []) (hcd : ∀ x ∈ c, x.isDigit = true)
    (hhead : okRestHead rest = true) (hdot : okRestDot rest = true) :
    extractCore (a ++ '.' :: (b ++ '.' :: (c ++ rest)))
      = ⟨some (String.mk a), some (String.mk (a ++ '.' :: b ++ '.' :: c)),
         some (String.mk (restOfLine rest)), 2⟩ := by
  obtain ⟨x, t, rfl⟩ : ∃ x t, a = x :: t := by
    cases a with
    | nil => exact absurd rfl ha
    | cons x t => exact ⟨x, t, rfl⟩
  have hx : x.isDigit = true := had x (by simp)
  have hcore := dottedCore_three (x :: t) b c rest ha had hb hbd hc hcd hhead hdot
  have hchap : matchChapter ((x :: t) ++ '.' :: (b ++ '.' :: (c ++ rest))) = none := by
    rw [List.cons_append]
    exact matchChapter_none_of_digit x _ hx
  have hsimple : matchSimple ((x :: t) ++ '.' :: (b ++ '.' :: (c ++ rest))) = none := by
    have h1 : digitsPlus ((x :: t) ++ '.' :: (b ++ '.' :: (c ++ rest)))
        = some (x :: t, '.' :: (b ++ '.' :: (c ++ rest))) :=
      digitsPlus_exact _ _ ha had (head_dot_cons _ _)
    simp only [matchSimple, h1, wsPlus_dot]
  have hspaced : matchSectionSpaced ((x :: t) ++ '.' :: (b ++ '.' :: (c ++ rest))) = none := by
    have hws : wsPlus rest = none :=
      wsPlus_none rest (fun z hz => (okRestHead_spec rest hhead z hz).2)
    simp only [matchSectionSpaced, hcore, hws]
  simp only [extractCore, hchap, hspaced, hsimple, matchSectionCompact, hcore]

theorem extractCore_four (a b c d rest : List Char)
    (ha : a ≠ []) (had : ∀ x ∈ a, x.isDigit = true)
    (hb : b ≠ []) (hbd : ∀ x ∈ b, x.isDigit = true)
    (hc : c ≠ []) (hcd : ∀ x ∈ c, x.isDigit = true)
    (hd : d ≠ []) (hdd : ∀ x ∈ d, x.isDigit = true)
    (hhead : okRestHead rest = true) :
    extractCore (a ++ '.' :: (b ++ '.' :: (c ++ '.' :: (d ++ rest))))
      = ⟨some (String.mk a), some (String.mk (a ++ '.' :: b ++ '.' :: c ++ '.' :: d)),
         some (String.mk (restOfLine rest)), 3⟩ := by
  obtain ⟨x, t, rfl⟩ : ∃ x t, a = x :: t := by
    cases a with
    | nil => exact absurd rfl ha
    | cons x t => exact ⟨x, t, rfl⟩
  have hx : x.isDigit = true := had x (by simp)
  have hcore := dottedCore_four (x :: t) b c d rest ha had hb hbd hc hcd hd hdd hhead
  have hchap : matchChapter ((x :: t) ++ '.' :: (b ++ '.' :: (c ++ '.' :: (d ++ rest))))
      = none := by
    rw [List.cons_append]
    exact matchChapter_none_of_digit x _ hx
  have hsimple : matchSimple ((x :: t) ++ '.' :: (b ++ '.' :: (c ++ '.' :: (d ++ rest))))
      = none := by
    have h1 : digitsPlus ((x :: t) ++ '.' :: (b ++ '.' :: (c ++ '.' :: (d ++ rest))))
        = some (x :: t, '.' :: (b ++ '.' :: (c ++ '.' :: (d ++ rest)))) :=
      digitsPlus_exact _ _ ha had (head_dot_cons _ _)
    simp only [matchSimple, h1, wsPlus_dot]
  have hspaced : matchSectionSpaced ((x :: t) ++ '.' :: (b ++ '.' :: (c ++ '.' :: (d ++ rest))))
      = none := by
    have hws : wsPlus rest = none :=
      wsPlus_none rest (fun z hz => (okRestHead_spec rest hhead z hz).2)
    simp only [matchSectionSpaced, hcore, hws]
  simp only [extractCore, hchap, hspaced, hsimple, matchSectionCompact, hcore]

/-- C9 counterexample: on the title "1.1A\nB" - in the claim's scope, since
it starts with digits, a dot and digits and has no whitespace right after
the numeric prefix - the classifier returns the section title "A", not
everything after the prefix ("A\nB"): the dot of the pattern engine stops
at the newline. -/
theorem C9_counterexample :
    extract_section_info "1.1A\nB" = ⟨some "1", some "1.1", some "A", 1⟩
    ∧ extract_section_info "1.1A\nB" ≠ ⟨some "1", some "1.1", some "A\nB", 1⟩ := by
  decide

/-- C9 (amended): for every title consisting of a maximal dotted numeric
prefix of two to four components followed by text that starts with neither
a digit, nor whitespace, nor a dot-digit continuation, the classifier
returns a section (never "unrecognized"): the prefix becomes the section
id, the first component the chapter number, the level is the number of
sub-components (1 to 3), and the trailing text *up to the first newline* -
possibly empty - becomes the section title. -/
theorem C9_compact_sections (parts : List (List Char)) (rest : List Char)
    (hlen2 : 2 ≤ parts.length) (hlen4 : parts.length ≤ 4)
    (hdig : ∀ part ∈ parts, part ≠ [] ∧ ∀ c ∈ part, c.isDigit = true)
    (hhead : okRestHead rest = true) (hdot : okRestDot rest = true) :
    extract_section_info (String.mk (joinDots parts ++ rest))
      = ⟨some (String.mk (parts.getD 0 [])), some (String.mk (joinDots parts)),
         some (String.mk (restOfLine rest)), (parts.length : Int) - 1⟩ := by
  rcases parts with _ | ⟨a, _ | ⟨b, _ | ⟨c, _ | ⟨d, _ | e⟩⟩⟩⟩
  · simp at hlen2
  · simp at hlen2
  · have hda := hdig a (by simp)
    have hdb := hdig b (by simp)
    have hjoin : joinDots [a, b] = a ++ '.' :: b := rfl
    have hassoc : joinDots [a, b] ++ rest = a ++ '.' :: (b ++ rest) := by
      rw [hjoin]
      simp
    show extractCore (joinDots [a, b] ++ rest) = _
    rw [hassoc, extractCore_two a b rest hda.1 hda.2 hdb.1 hdb.2 hhead hdot]
    rfl
  · have hda := hdig a (by simp)
    have hdb := hdig b (by simp)
    have hdc := hdig c (by simp)
    have hassoc : joinDots [a, b, c] ++ rest = a ++ '.' :: (b ++ '.' :: (c ++ rest)) := by
      show (a ++ '.' :: (b ++ '.' :: c)) ++ rest = a ++ '.' :: (b ++ '.' :: (c ++ rest))
      simp
    show extractCore (joinDots [a, b, c] ++ rest) = _
    rw [hassoc, extractCore_three a b c rest hda.1 hda.2 hdb.1 hdb.2 hdc.1 hdc.2 hhead hdot]
    have hjoin2 : a ++ '.' :: b ++ '.' :: c = joinDots [a, b, c] := by
      show a ++ '.' :: b ++ '.' :: c = a ++ '.' :: (b ++ '.' :: c)
      simp
    rw [hjoin2]
    norm_num [List.getD]
  · have hda := hdig a (by simp)
    have hdb := hdig b (by simp)
    have hdc := hdig c (by simp)
    have hdd := hdig d (by simp)
    have hassoc : joinDots [a, b, c, d] ++ rest
        = a ++ '.' :: (b ++ '.' :: (c ++ '.' :: (d ++ rest))) := by
      show (a ++ '.' :: (b ++ '.' :: (c ++ '.' :: d))) ++ rest
        = a ++ '.' :: (b ++ '.' :: (c ++ '.' :: (d ++ rest)))
      simp
    show extractCore (joinDots [a, b, c, d] ++ rest) = _
    rw [hassoc,
      extractCore_four a b c d rest hda.1 hda.2 hdb.1 hdb.2 hdc.1 hdc.2 hdd.1 hdd.2 hhead]
    have hjoin2 : a ++ '.' :: b ++ '.' :: c ++ '.' :: d = joinDots [a, b, c, d] := by
      show a ++ '.' :: b ++ '.' :: c ++ '.' :: d = a ++ '.' :: (b ++ '.' :: (c ++ '.' :: d))
      simp
    rw [hjoin2]
    norm_num [List.getD]
  · simp at hlen4

/-- C9 witness: the amended statement applied at the title "1.1Overview". -/
theorem C9_witness :
    (2 ≤ ([['1'], ['1']] : List (List Char)).length
      ∧ ([['1'], ['1']] : List (List Char)).length ≤ 4
      ∧ okRestHead ('O' :: "verview".data) = true
      ∧ okRestDot ('O' :: "verview".data) = true)
    ∧ extract_section_info (String.mk (joinDots [['1'], ['1']] ++ ('O' :: "verview".data)))
        = ⟨some (String.mk (([['1'], ['1']] : List (List Char)).getD 0 [])),
           some (String.mk (joinDots [['1'], ['1']])),
           some (String.mk (restOfLine ('O' :: "verview".data))),
           (([['1'], ['1']] : List (List Char)).length : Int) - 1⟩ :=
  ⟨⟨by decide, by decide, by decide, by decide⟩,
   C9_compact_sections [['1'], ['1']] ('O' :: "verview".data)
     (by decide) (by decide) (by decide) (by decide) (by decide)⟩
